import Mathlib

/-!
Shallow embedding of `segmentation_models/utils/functional.py`: differentiable
metrics and losses for semantic segmentation (IoU/Jaccard, F-beta/Dice,
categorical cross-entropy, focal loss).

Tensors of shape (batch, height, width, channels) are modelled as functions
`Fin B → Fin H → Fin W → Fin C → α`.  The metric functions (`iou_score`,
`f_score`) involve only field operations and comparisons, so they are embedded
over `ℚ` and are fully executable; the losses involve `log` and real powers,
so they are embedded over `ℝ`.

The backend primitives are modelled as follows:
- `backend.sum(x, axis=[1,2])` / `axis=[0,1,2]` become `sum_hw` / `sum_bhw`;
- `backend.mean` of a rank-1 tensor becomes `mean_fin` (sum divided by length),
  and the full-tensor mean becomes `mean4`;
- `backend.greater(pr, t)` followed by `backend.cast(..., floatx())` becomes
  an indicator `if t < pr ... then 1 else 0`;
- `backend.clip(x, lo, hi)` (TensorFlow `clip_by_value`) becomes
  `min (max x lo) hi`;
- `backend.log` and `backend.pow` become `Real.log` and real `rpow`.
-/

namespace SegmentationModels

/-- A 4D tensor of shape (B, H, W, C), entries of type `α`. -/
abbrev Tensor (B H W C : ℕ) (α : Type) := Fin B → Fin H → Fin W → Fin C → α

/-- Module-level default `SMOOTH = 1.` (functional.py line 11). -/
def SMOOTH : ℚ := 1

/-- The backend mean of a rank-1 tensor of length `n`: the sum of the entries
divided by `n`. -/
def mean_fin {n : ℕ} (f : Fin n → ℚ) : ℚ := (∑ i, f i) / n

/-- The reduction `backend.sum(x, axis=[1, 2])`: collapse height and width, leaving a
tensor indexed by batch and channel (the `per_image=True` axis set). -/
def sum_hw {B H W C : ℕ} (x : Tensor B H W C ℚ) (b : Fin B) (c : Fin C) : ℚ :=
  ∑ h, ∑ w, x b h w c

/-- The reduction `backend.sum(x, axis=[0, 1, 2])`: collapse batch, height and width,
leaving a tensor indexed by channel (the `per_image=False` axis set). -/
def sum_bhw {B H W C : ℕ} (x : Tensor B H W C ℚ) (c : Fin C) : ℚ :=
  ∑ b, ∑ h, ∑ w, x b h w c

/-- Lines 45-47 / 104-106: when `threshold` is not `None`, replace `pr` by
`cast(greater(pr, threshold), floatx())`, i.e. the 0/1 indicator of the strict
comparison `pr > threshold`; when it is `None`, leave `pr` unchanged. -/
def threshold_pr {B H W C : ℕ} (pr : Tensor B H W C ℚ) :
    Option ℚ → Tensor B H W C ℚ
  | none => pr
  | some t => fun b h w c => if t < pr b h w c then 1 else 0

/-- The function `iou_score(gt, pr, class_weights, smooth, per_image, threshold)`
(functional.py lines 14-60): optional thresholding of `pr`, then
`intersection = sum(gt * pr, axes)`, `union = sum(gt + pr, axes) − intersection`,
`iou = (intersection + smooth) / (union + smooth)`, a mean over the batch axis
when `per_image`, and finally `mean(iou * class_weights)` over the class axis. -/
def iou_score {B H W C : ℕ} (gt pr : Tensor B H W C ℚ) (class_weights : Fin C → ℚ)
    (smooth : ℚ) (per_image : Bool) (threshold : Option ℚ) : ℚ :=
  let pr := threshold_pr pr threshold
  if per_image then
    let intersection : Fin B → Fin C → ℚ :=
      fun b c => sum_hw (fun i j k l => gt i j k l * pr i j k l) b c
    let union : Fin B → Fin C → ℚ :=
      fun b c => sum_hw (fun i j k l => gt i j k l + pr i j k l) b c - intersection b c
    let iou : Fin B → Fin C → ℚ :=
      fun b c => (intersection b c + smooth) / (union b c + smooth)
    let iou_b : Fin C → ℚ := fun c => mean_fin (fun b => iou b c)
    mean_fin (fun c => iou_b c * class_weights c)
  else
    let intersection : Fin C → ℚ :=
      fun c => sum_bhw (fun i j k l => gt i j k l * pr i j k l) c
    let union : Fin C → ℚ :=
      fun c => sum_bhw (fun i j k l => gt i j k l + pr i j k l) c - intersection c
    let iou : Fin C → ℚ :=
      fun c => (intersection c + smooth) / (union c + smooth)
    mean_fin (fun c => iou c * class_weights c)

/-- The function `f_score(gt, pr, class_weights, beta, smooth, per_image, threshold)`
(functional.py lines 63-122): optional thresholding of `pr`, then
`tp = sum(gt * pr, axes)`, `fp = sum(pr, axes) − tp`, `fn = sum(gt, axes) − tp`,
`score = ((1 + β²)·tp + smooth) / ((1 + β²)·tp + β²·fn + fp + smooth)`, a mean
over the batch axis when `per_image`, and finally `mean(score * class_weights)`
over the class axis. -/
def f_score {B H W C : ℕ} (gt pr : Tensor B H W C ℚ) (class_weights : Fin C → ℚ)
    (beta smooth : ℚ) (per_image : Bool) (threshold : Option ℚ) : ℚ :=
  let pr := threshold_pr pr threshold
  if per_image then
    let tp : Fin B → Fin C → ℚ :=
      fun b c => sum_hw (fun i j k l => gt i j k l * pr i j k l) b c
    let fp : Fin B → Fin C → ℚ := fun b c => sum_hw pr b c - tp b c
    let fn : Fin B → Fin C → ℚ := fun b c => sum_hw gt b c - tp b c
    let score : Fin B → Fin C → ℚ := fun b c =>
      ((1 + beta ^ 2) * tp b c + smooth) /
        ((1 + beta ^ 2) * tp b c + beta ^ 2 * fn b c + fp b c + smooth)
    let score_b : Fin C → ℚ := fun c => mean_fin (fun b => score b c)
    mean_fin (fun c => score_b c * class_weights c)
  else
    let tp : Fin C → ℚ :=
      fun c => sum_bhw (fun i j k l => gt i j k l * pr i j k l) c
    let fp : Fin C → ℚ := fun c => sum_bhw pr c - tp c
    let fn : Fin C → ℚ := fun c => sum_bhw gt c - tp c
    let score : Fin C → ℚ := fun c =>
      ((1 + beta ^ 2) * tp c + smooth) /
        ((1 + beta ^ 2) * tp c + beta ^ 2 * fn c + fp c + smooth)
    mean_fin (fun c => score c * class_weights c)

end SegmentationModels

namespace SegmentationModels

/-- C2: `iou_score` computes intersection = sum(gt·pr) over the reduction axes
(height and width when `per_image`, batch/height/width otherwise, after
optional thresholding of `pr`), union = sum(gt+pr) over the same axes minus
intersection, score = (intersection+smooth)/(union+smooth), then the mean over
the batch axis when `per_image`, and finally the mean of score·class_weights
over the class axis. -/
theorem iou_score_formula {B H W C : ℕ} (gt pr : Tensor B H W C ℚ)
    (class_weights : Fin C → ℚ) (smooth : ℚ) (per_image : Bool)
    (threshold : Option ℚ) :
    iou_score gt pr class_weights smooth per_image threshold =
      if per_image then
        (∑ c, ((∑ b,
            ((∑ h, ∑ w, gt b h w c * threshold_pr pr threshold b h w c) + smooth) /
            ((∑ h, ∑ w, (gt b h w c + threshold_pr pr threshold b h w c)) -
              (∑ h, ∑ w, gt b h w c * threshold_pr pr threshold b h w c) + smooth)) / B) *
          class_weights c) / C
      else
        (∑ c,
          (((∑ b, ∑ h, ∑ w, gt b h w c * threshold_pr pr threshold b h w c) + smooth) /
           ((∑ b, ∑ h, ∑ w, (gt b h w c + threshold_pr pr threshold b h w c)) -
             (∑ b, ∑ h, ∑ w, gt b h w c * threshold_pr pr threshold b h w c) + smooth)) *
          class_weights c) / C := by
  cases per_image <;> rfl

/-- C3: `f_score` computes tp = sum(gt·pr) over the reduction axes (after
optional thresholding of `pr`), fp = sum(pr) − tp, fn = sum(gt) − tp, and
returns the class-weighted mean (with a per-image batch mean when `per_image`)
of ((1+β²)·tp + smooth) / ((1+β²)·tp + β²·fn + fp + smooth). -/
theorem f_score_formula {B H W C : ℕ} (gt pr : Tensor B H W C ℚ)
    (class_weights : Fin C → ℚ) (beta smooth : ℚ) (per_image : Bool)
    (threshold : Option ℚ) :
    f_score gt pr class_weights beta smooth per_image threshold =
      if per_image then
        (∑ c, ((∑ b,
            ((1 + beta ^ 2) * (∑ h, ∑ w, gt b h w c * threshold_pr pr threshold b h w c) + smooth) /
            ((1 + beta ^ 2) * (∑ h, ∑ w, gt b h w c * threshold_pr pr threshold b h w c) +
              beta ^ 2 * ((∑ h, ∑ w, gt b h w c) -
                (∑ h, ∑ w, gt b h w c * threshold_pr pr threshold b h w c)) +
              ((∑ h, ∑ w, threshold_pr pr threshold b h w c) -
                (∑ h, ∑ w, gt b h w c * threshold_pr pr threshold b h w c)) + smooth)) / B) *
          class_weights c) / C
      else
        (∑ c,
          (((1 + beta ^ 2) * (∑ b, ∑ h, ∑ w, gt b h w c * threshold_pr pr threshold b h w c) + smooth) /
           ((1 + beta ^ 2) * (∑ b, ∑ h, ∑ w, gt b h w c * threshold_pr pr threshold b h w c) +
             beta ^ 2 * ((∑ b, ∑ h, ∑ w, gt b h w c) -
               (∑ b, ∑ h, ∑ w, gt b h w c * threshold_pr pr threshold b h w c)) +
             ((∑ b, ∑ h, ∑ w, threshold_pr pr threshold b h w c) -
               (∑ b, ∑ h, ∑ w, gt b h w c * threshold_pr pr threshold b h w c)) + smooth)) *
          class_weights c) / C := by
  cases per_image <;> rfl

/-- C5: thresholding with a cut `t` binarizes the prediction before any score
is computed: `iou_score` and `f_score` with `threshold = some t` agree with the
`threshold = none` call on the prediction whose entries are 1 where
`pr > t` holds strictly and 0 elsewhere. -/
theorem threshold_binarizes {B H W C : ℕ} (gt pr : Tensor B H W C ℚ)
    (class_weights : Fin C → ℚ) (beta smooth t : ℚ) (per_image : Bool) :
    iou_score gt pr class_weights smooth per_image (some t) =
      iou_score gt (fun i j k l => if t < pr i j k l then 1 else 0)
        class_weights smooth per_image none ∧
    f_score gt pr class_weights beta smooth per_image (some t) =
      f_score gt (fun i j k l => if t < pr i j k l then 1 else 0)
        class_weights beta smooth per_image none :=
  ⟨rfl, rfl⟩

/-- C10: with `threshold = none`, `iou_score` is symmetric in its two tensor
arguments, since both sum(gt·pr) and sum(gt+pr) − intersection are symmetric
in `gt` and `pr`. -/
theorem iou_score_symm {B H W C : ℕ} (gt pr : Tensor B H W C ℚ)
    (class_weights : Fin C → ℚ) (smooth : ℚ) (per_image : Bool) :
    iou_score gt pr class_weights smooth per_image none =
      iou_score pr gt class_weights smooth per_image none := by
  have hmul : (fun i j k l => gt i j k l * pr i j k l) =
      (fun i j k l => pr i j k l * gt i j k l) := by
    funext i j k l; ring
  have hadd : (fun i j k l => gt i j k l + pr i j k l) =
      (fun i j k l => pr i j k l + gt i j k l) := by
    funext i j k l; ring
  cases per_image <;> simp only [iou_score, threshold_pr, hmul, hadd]

/-- C6: on identical all-ones tensors, with `threshold = None` and unit class
weights, both the IoU score and the F-score are exactly 1 for every `beta`
(the `smooth` term is added to numerator and denominator alike). -/
theorem ones_score {B H W C : ℕ} (beta smooth : ℚ) (hB : 0 < B) (hC : 0 < C)
    (hs : 0 < smooth) (per_image : Bool) :
    iou_score ((fun _ _ _ _ => 1) : Tensor B H W C ℚ)
        ((fun _ _ _ _ => 1) : Tensor B H W C ℚ) (fun _ => 1)
        smooth per_image none = 1 ∧
    f_score ((fun _ _ _ _ => 1) : Tensor B H W C ℚ)
        ((fun _ _ _ _ => 1) : Tensor B H W C ℚ) (fun _ => 1)
        beta smooth per_image none = 1 := by
  have hB' : (B : ℚ) ≠ 0 := Nat.cast_ne_zero.mpr hB.ne'
  have hC' : (C : ℚ) ≠ 0 := Nat.cast_ne_zero.mpr hC.ne'
  have h1 : (H : ℚ) * W + smooth ≠ 0 := by positivity
  have h2 : (B : ℚ) * ((H : ℚ) * W) + smooth ≠ 0 := by positivity
  have h3 : (1 + beta ^ 2) * ((H : ℚ) * W) + smooth ≠ 0 := by positivity
  have h4 : (1 + beta ^ 2) * ((B : ℚ) * ((H : ℚ) * W)) + smooth ≠ 0 := by positivity
  refine ⟨?_, ?_⟩ <;> cases per_image <;>
    simp [iou_score, f_score, threshold_pr, sum_hw, sum_bhw, mean_fin,
      Finset.sum_const, Finset.card_univ, Fintype.card_fin, nsmul_eq_mul]
  · rw [div_self h2, mul_one, div_self hC']
  · rw [div_self h1, mul_one, div_self hB', mul_one, div_self hC']
  · rw [div_self h4, mul_one, div_self hC']
  · rw [div_self h3, mul_one, div_self hB', mul_one, div_self hC']

/-- Witness for `ones_score` on 1×1×1×1 tensors with `beta = 2`, `smooth = 1`,
`per_image = true`. -/
theorem ones_score_witness :
    (0 < 1) ∧ ((0 : ℚ) < 1) ∧
    iou_score ((fun _ _ _ _ => 1) : Tensor 1 1 1 1 ℚ)
        ((fun _ _ _ _ => 1) : Tensor 1 1 1 1 ℚ) (fun _ => 1) 1 true none = 1 ∧
    f_score ((fun _ _ _ _ => 1) : Tensor 1 1 1 1 ℚ)
        ((fun _ _ _ _ => 1) : Tensor 1 1 1 1 ℚ) (fun _ => 1) 2 1 true none = 1 :=
  ⟨by decide, by decide,
    (ones_score 2 1 (by decide) (by decide) (by decide) true).1,
    (ones_score 2 1 (by decide) (by decide) (by decide) true).2⟩

/-- C7: when `gt` and `pr` are disjoint (every elementwise product is zero),
with `threshold = None` and unit class weights, `iou_score` is the per-image
and per-class mean of smooth / (union + smooth); moreover
smooth / (u + smooth) is at most ε once the union u reaches smooth / ε, so the
score tends to 0 as the union grows. -/
theorem iou_score_disjoint {B H W C : ℕ} (gt pr : Tensor B H W C ℚ) (smooth : ℚ)
    (hs : 0 < smooth) (per_image : Bool)
    (hdisj : ∀ b h w c, gt b h w c * pr b h w c = 0) :
    (iou_score gt pr (fun _ => 1) smooth per_image none =
      if per_image then
        mean_fin (fun c => mean_fin (fun b =>
          smooth / (sum_hw (fun i j k l => gt i j k l + pr i j k l) b c + smooth)))
      else
        mean_fin (fun c =>
          smooth / (sum_bhw (fun i j k l => gt i j k l + pr i j k l) c + smooth))) ∧
    (∀ ε : ℚ, 0 < ε → ∀ u : ℚ, smooth / ε ≤ u → smooth / (u + smooth) ≤ ε) := by
  have hsum0 : ∀ (b : Fin B) (c : Fin C),
      (∑ h, ∑ w, gt b h w c * pr b h w c) = 0 := fun b c =>
    Finset.sum_eq_zero fun h _ => Finset.sum_eq_zero fun w _ => hdisj b h w c
  have hsum0' : ∀ c : Fin C,
      (∑ b, ∑ h, ∑ w, gt b h w c * pr b h w c) = 0 := fun c =>
    Finset.sum_eq_zero fun b _ => hsum0 b c
  constructor
  · cases per_image <;>
      simp [iou_score, threshold_pr, sum_hw, sum_bhw, mean_fin, hsum0, hsum0']
  · intro ε hε u hu
    have hu0 : 0 < u := lt_of_lt_of_le (by positivity) hu
    have hus : 0 < u + smooth := by positivity
    rw [div_le_iff₀ hus]
    have hsu : smooth ≤ ε * u := by
      have := (div_le_iff₀ hε).mp hu
      linarith [this]
    nlinarith [mul_pos hε hs]

/-- Concrete disjoint ground truth for the `iou_score_disjoint` witness: the
left half of a 1×1×2×1 image. -/
def gtW : Tensor 1 1 2 1 ℚ := fun _ _ w _ => if w = 0 then 1 else 0

/-- Concrete disjoint prediction for the `iou_score_disjoint` witness: the
right half of a 1×1×2×1 image. -/
def prW : Tensor 1 1 2 1 ℚ := fun _ _ w _ => if w = 0 then 0 else 1

/-- Witness for `iou_score_disjoint` on disjoint 1×1×2×1 tensors with
`smooth = 1`, `per_image = true`, and the tail bound at `ε = 1`, `u = 5`. -/
theorem iou_score_disjoint_witness :
    ((0 : ℚ) < 1) ∧
    (∀ b h w c, gtW b h w c * prW b h w c = 0) ∧
    (iou_score gtW prW (fun _ => 1) 1 true none =
      if true then
        mean_fin (fun c => mean_fin (fun b =>
          1 / (sum_hw (fun i j k l => gtW i j k l + prW i j k l) b c + 1)))
      else
        mean_fin (fun c =>
          1 / (sum_bhw (fun i j k l => gtW i j k l + prW i j k l) c + 1))) ∧
    ((1 : ℚ) / (5 + 1) ≤ 1) :=
  ⟨by norm_num, fun b h w c => by fin_cases w <;> simp [gtW, prW],
    (iou_score_disjoint gtW prW 1 (by norm_num) true
      (fun b h w c => by fin_cases w <;> simp [gtW, prW])).1,
    (iou_score_disjoint gtW prW 1 (by norm_num) true
      (fun b h w c => by fin_cases w <;> simp [gtW, prW])).2 1 (by norm_num)
      5 (by norm_num)⟩

/-- The per-channel IoU score of lines 49-55: the value multiplied by
`class_weights[c]` on line 58 before the final mean over channels. -/
def iou_channel {B H W C : ℕ} (gt pr : Tensor B H W C ℚ) (smooth : ℚ)
    (per_image : Bool) (threshold : Option ℚ) (c : Fin C) : ℚ :=
  let pr := threshold_pr pr threshold
  if per_image then
    mean_fin (fun b =>
      (sum_hw (fun i j k l => gt i j k l * pr i j k l) b c + smooth) /
      (sum_hw (fun i j k l => gt i j k l + pr i j k l) b c -
        sum_hw (fun i j k l => gt i j k l * pr i j k l) b c + smooth))
  else
    (sum_bhw (fun i j k l => gt i j k l * pr i j k l) c + smooth) /
      (sum_bhw (fun i j k l => gt i j k l + pr i j k l) c -
        sum_bhw (fun i j k l => gt i j k l * pr i j k l) c + smooth)

/-- The per-channel F-beta score of lines 108-117: the value multiplied by
`class_weights[c]` on line 120 before the final mean over channels. -/
def f_channel {B H W C : ℕ} (gt pr : Tensor B H W C ℚ) (beta smooth : ℚ)
    (per_image : Bool) (threshold : Option ℚ) (c : Fin C) : ℚ :=
  let pr := threshold_pr pr threshold
  if per_image then
    mean_fin (fun b =>
      ((1 + beta ^ 2) * sum_hw (fun i j k l => gt i j k l * pr i j k l) b c + smooth) /
      ((1 + beta ^ 2) * sum_hw (fun i j k l => gt i j k l * pr i j k l) b c +
        beta ^ 2 * (sum_hw gt b c - sum_hw (fun i j k l => gt i j k l * pr i j k l) b c) +
        (sum_hw pr b c - sum_hw (fun i j k l => gt i j k l * pr i j k l) b c) + smooth))
  else
    ((1 + beta ^ 2) * sum_bhw (fun i j k l => gt i j k l * pr i j k l) c + smooth) /
      ((1 + beta ^ 2) * sum_bhw (fun i j k l => gt i j k l * pr i j k l) c +
        beta ^ 2 * (sum_bhw gt c - sum_bhw (fun i j k l => gt i j k l * pr i j k l) c) +
        (sum_bhw pr c - sum_bhw (fun i j k l => gt i j k l * pr i j k l) c) + smooth)

/-- Updating the weight of one channel inside the weighted channel mean shifts
the mean by the rescaled contribution of that channel. -/
theorem weighted_mean_update {C : ℕ} (S w : Fin C → ℚ) (c₀ : Fin C) (k : ℚ) :
    mean_fin (fun c => S c * Function.update w c₀ (k * w c₀) c) =
      mean_fin (fun c => S c * w c) + (k - 1) * (S c₀ * w c₀) / C := by
  unfold mean_fin
  have hfun : (fun c => S c * Function.update w c₀ (k * w c₀) c) =
      Function.update (fun c => S c * w c) c₀ (S c₀ * (k * w c₀)) := by
    funext c
    by_cases hc : c = c₀
    · subst hc; simp
    · simp [Function.update_noteq hc]
  rw [hfun, Finset.sum_update_of_mem (Finset.mem_univ c₀),
    Finset.sum_eq_sum_diff_singleton_add (Finset.mem_univ c₀) (fun c => S c * w c),
    div_add_div_same]
  congr 1
  ring

/-- C8: `iou_score` and `f_score` are linear in the class-weight vector: each
value is the mean over channels of the per-channel score times its weight, and
multiplying the weight of one channel by `k` shifts exactly that channel and
contribution by the factor `k`. -/
theorem class_weights_linear {B H W C : ℕ} (gt pr : Tensor B H W C ℚ)
    (w : Fin C → ℚ) (beta smooth : ℚ) (per_image : Bool) (threshold : Option ℚ)
    (c₀ : Fin C) (k : ℚ) :
    iou_score gt pr w smooth per_image threshold =
      (∑ c, iou_channel gt pr smooth per_image threshold c * w c) / C ∧
    f_score gt pr w beta smooth per_image threshold =
      (∑ c, f_channel gt pr beta smooth per_image threshold c * w c) / C ∧
    iou_score gt pr (Function.update w c₀ (k * w c₀)) smooth per_image threshold =
      iou_score gt pr w smooth per_image threshold +
        (k - 1) * (iou_channel gt pr smooth per_image threshold c₀ * w c₀) / C ∧
    f_score gt pr (Function.update w c₀ (k * w c₀)) beta smooth per_image threshold =
      f_score gt pr w beta smooth per_image threshold +
        (k - 1) * (f_channel gt pr beta smooth per_image threshold c₀ * w c₀) / C := by
  have hiou : ∀ v : Fin C → ℚ, iou_score gt pr v smooth per_image threshold =
      mean_fin (fun c => iou_channel gt pr smooth per_image threshold c * v c) := by
    intro v; cases per_image <;> rfl
  have hf : ∀ v : Fin C → ℚ, f_score gt pr v beta smooth per_image threshold =
      mean_fin (fun c => f_channel gt pr beta smooth per_image threshold c * v c) := by
    intro v; cases per_image <;> rfl
  refine ⟨hiou w, hf w, ?_, ?_⟩
  · rw [hiou, hiou, weighted_mean_update]
  · rw [hf, hf, weighted_mean_update]

/-- The primitive `backend.clip(x, lo, hi)` (TensorFlow `clip_by_value`):
`min(max(x, lo), hi)`. -/
noncomputable def clip (x lo hi : ℝ) : ℝ := min (max x lo) hi

/-- The backend mean over all four axes of a (B, H, W, C) real tensor: the sum of
all entries divided by the number of entries. -/
noncomputable def mean4 {B H W C : ℕ} (f : Tensor B H W C ℝ) : ℝ :=
  (∑ b, ∑ h, ∑ w, ∑ c, f b h w c) / ((B : ℝ) * H * W * C)

/-- The function `categorical_crossentropy(gt, pr, class_weights)` (functional.py lines
125-137, with `image_data_format() = channels_last` so the normalization axis
is the channel axis 3, and `eps = backend.epsilon()`): `pr` is divided by its
channel-axis sum, clipped to `[eps, 1 − eps]`, and the result is
`− mean(gt * log(pr) * class_weights)`. -/
noncomputable def categorical_crossentropy {B H W C : ℕ}
    (gt pr : Tensor B H W C ℝ) (class_weights : Fin C → ℝ) (eps : ℝ) : ℝ :=
  let pr1 : Tensor B H W C ℝ := fun b h w c => pr b h w c / (∑ j, pr b h w j)
  let pr2 : Tensor B H W C ℝ := fun b h w c => clip (pr1 b h w c) eps (1 - eps)
  let output : Tensor B H W C ℝ :=
    fun b h w c => gt b h w c * Real.log (pr2 b h w c) * class_weights c;
  - mean4 output

/-- The function `categorical_focal_loss(gt, pr, gamma, alpha)` (functional.py lines
145-168, with `eps = backend.epsilon()`): `pr` is clipped to `[eps, 1 − eps]`,
`cross_entropy = − gt * log(pr)`, `weight = alpha * gt * (1 − pr)^gamma`, and
the result is `mean(weight * cross_entropy)`. -/
noncomputable def categorical_focal_loss {B H W C : ℕ}
    (gt pr : Tensor B H W C ℝ) (gamma alpha eps : ℝ) : ℝ :=
  let prc : Tensor B H W C ℝ := fun b h w c => clip (pr b h w c) eps (1 - eps)
  let cross_entropy : Tensor B H W C ℝ :=
    fun b h w c => -(gt b h w c * Real.log (prc b h w c))
  let weight : Tensor B H W C ℝ :=
    fun b h w c => alpha * gt b h w c * (1 - prc b h w c) ^ gamma
  mean4 (fun b h w c => weight b h w c * cross_entropy b h w c)

/-- Modelled from the spec sentence for C1: minus the mean of
`alpha * gt * (1 − pr)^gamma * log(pr)` with `pr` first clipped to
`[eps, 1 − eps]` — the ground truth appearing to the **first** power. -/
noncomputable def categorical_focal_loss_spec {B H W C : ℕ}
    (gt pr : Tensor B H W C ℝ) (gamma alpha eps : ℝ) : ℝ :=
  let prc : Tensor B H W C ℝ := fun b h w c => clip (pr b h w c) eps (1 - eps);
  - mean4 (fun b h w c =>
      alpha * gt b h w c * (1 - prc b h w c) ^ gamma * Real.log (prc b h w c))

/-- The function `focal_loss(gt, pr, gamma, alpha)` (functional.py lines 171-183):
`categorical_focal_loss(gt, pr) + categorical_focal_loss(1 − gt, 1 − pr)`. -/
noncomputable def focal_loss {B H W C : ℕ} (gt pr : Tensor B H W C ℝ)
    (gamma alpha eps : ℝ) : ℝ :=
  categorical_focal_loss gt pr gamma alpha eps +
    categorical_focal_loss (fun b h w c => 1 - gt b h w c)
      (fun b h w c => 1 - pr b h w c) gamma alpha eps

/-- C4: `categorical_crossentropy` first divides `pr` by its channel-axis sum
(after which the class probabilities of each sample sum to 1 whenever that sum is
nonzero), then clips to `[eps, 1 − eps]`, and returns minus the mean of
`gt * log(pr) * class_weights`. -/
theorem categorical_crossentropy_formula {B H W C : ℕ}
    (gt pr : Tensor B H W C ℝ) (class_weights : Fin C → ℝ) (eps : ℝ) :
    (categorical_crossentropy gt pr class_weights eps =
      - mean4 (fun b h w c =>
          gt b h w c *
            Real.log (clip (pr b h w c / (∑ j, pr b h w j)) eps (1 - eps)) *
            class_weights c)) ∧
    (∀ b h w, (∑ j, pr b h w j) ≠ 0 →
      (∑ c, pr b h w c / (∑ j, pr b h w j)) = 1) := by
  refine ⟨rfl, fun b h w hsum => ?_⟩
  rw [← Finset.sum_div, div_self hsum]

/-- Witness for `categorical_crossentropy_formula` on 1×1×1×1 tensors with
`gt = 1`, `pr = 1`, unit weight and `eps = 1/10`. -/
theorem categorical_crossentropy_formula_witness :
    (categorical_crossentropy ((fun _ _ _ _ => 1) : Tensor 1 1 1 1 ℝ)
        ((fun _ _ _ _ => 1) : Tensor 1 1 1 1 ℝ) (fun _ => 1) (1 / 10) =
      - mean4 ((fun _ _ _ _ =>
          (1 : ℝ) * Real.log (clip ((1 : ℝ) / (∑ _j : Fin 1, 1)) (1 / 10) (1 - 1 / 10)) * 1) :
            Tensor 1 1 1 1 ℝ)) ∧
    ((∑ _j : Fin 1, (1 : ℝ)) ≠ 0) ∧
    ((∑ _c : Fin 1, (1 : ℝ) / (∑ _j : Fin 1, (1 : ℝ))) = 1) :=
  ⟨(categorical_crossentropy_formula (fun _ _ _ _ => 1) (fun _ _ _ _ => 1)
      (fun _ => 1) (1 / 10)).1,
    by simp,
    (categorical_crossentropy_formula ((fun _ _ _ _ => 1) : Tensor 1 1 1 1 ℝ)
      (fun _ _ _ _ => 1) (fun _ => 1) (1 / 10)).2 0 0 0 (by simp)⟩

/-- Counterexample to C1 as stated: on the 1×1×1×1 tensors `gt = pr = 1/2`
with `gamma = 1`, `alpha = 1`, `eps = 1/4`, the implementation (where the
ground truth enters both the cross-entropy and the modulating weight, hence
squared) differs from minus the mean of `alpha·gt·(1−pr)^γ·log(pr)` with `gt`
to the first power. -/
theorem categorical_focal_loss_not_first_power :
    categorical_focal_loss ((fun _ _ _ _ => 1 / 2) : Tensor 1 1 1 1 ℝ)
        ((fun _ _ _ _ => 1 / 2) : Tensor 1 1 1 1 ℝ) 1 1 (1 / 4) ≠
      categorical_focal_loss_spec ((fun _ _ _ _ => 1 / 2) : Tensor 1 1 1 1 ℝ)
        ((fun _ _ _ _ => 1 / 2) : Tensor 1 1 1 1 ℝ) 1 1 (1 / 4) := by
  have hclip : clip (1 / 2 : ℝ) (1 / 4) (1 - 1 / 4) = 1 / 2 := by
    rw [clip]
    rw [max_eq_left (by norm_num), min_eq_left (by norm_num)]
  simp only [categorical_focal_loss, categorical_focal_loss_spec, mean4,
    Fin.sum_univ_one, hclip]
  rw [Real.rpow_one]
  intro h
  norm_num at h

/-- C1 amended: `categorical_focal_loss(gt, pr, gamma, alpha)` equals minus
the mean of `alpha · gt² · (1 − pr)^gamma · log(pr)` with `pr` first clipped
to `[eps, 1 − eps]` — the ground truth factor appears squared, because it
enters both the cross-entropy term and the modulating weight (for 0/1 ground
truth this coincides with the first-power formula). -/
theorem categorical_focal_loss_formula {B H W C : ℕ}
    (gt pr : Tensor B H W C ℝ) (gamma alpha eps : ℝ) :
    categorical_focal_loss gt pr gamma alpha eps =
      - mean4 (fun b h w c =>
          alpha * gt b h w c ^ 2 * (1 - clip (pr b h w c) eps (1 - eps)) ^ gamma *
            Real.log (clip (pr b h w c) eps (1 - eps))) := by
  simp only [categorical_focal_loss, mean4]
  rw [← neg_div]
  congr 1
  rw [← Finset.sum_neg_distrib]
  refine Finset.sum_congr rfl fun b _ => ?_
  rw [← Finset.sum_neg_distrib]
  refine Finset.sum_congr rfl fun h _ => ?_
  rw [← Finset.sum_neg_distrib]
  refine Finset.sum_congr rfl fun w _ => ?_
  rw [← Finset.sum_neg_distrib]
  refine Finset.sum_congr rfl fun c _ => ?_
  ring

/-- The full-tensor mean of entries lying in `[0, M]` lies in `[0, M]`
itself (also when some dimension is zero, where the mean degenerates to 0). -/
theorem mean4_mem_Icc {B H W C : ℕ} (f : Tensor B H W C ℝ) (M : ℝ) (hM : 0 ≤ M)
    (hf : ∀ b h w c, 0 ≤ f b h w c ∧ f b h w c ≤ M) :
    0 ≤ mean4 f ∧ mean4 f ≤ M := by
  have hS0 : 0 ≤ ∑ b, ∑ h, ∑ w, ∑ c, f b h w c :=
    Finset.sum_nonneg fun b _ => Finset.sum_nonneg fun h _ =>
      Finset.sum_nonneg fun w _ => Finset.sum_nonneg fun c _ => (hf b h w c).1
  have h1 : ∀ b h w, (∑ c, f b h w c) ≤ (C : ℝ) * M := fun b h w => by
    calc (∑ c, f b h w c) ≤ ∑ _c : Fin C, M :=
          Finset.sum_le_sum fun c _ => (hf b h w c).2
      _ = (C : ℝ) * M := by
          simp [Finset.sum_const, Finset.card_univ, nsmul_eq_mul]
  have h2 : ∀ b h, (∑ w, ∑ c, f b h w c) ≤ (W : ℝ) * ((C : ℝ) * M) := fun b h => by
    calc (∑ w, ∑ c, f b h w c) ≤ ∑ _w : Fin W, (C : ℝ) * M :=
          Finset.sum_le_sum fun w _ => h1 b h w
      _ = (W : ℝ) * ((C : ℝ) * M) := by
          simp [Finset.sum_const, Finset.card_univ, nsmul_eq_mul]
  have h3 : ∀ b, (∑ h, ∑ w, ∑ c, f b h w c) ≤
      (H : ℝ) * ((W : ℝ) * ((C : ℝ) * M)) := fun b => by
    calc (∑ h, ∑ w, ∑ c, f b h w c) ≤ ∑ _h : Fin H, (W : ℝ) * ((C : ℝ) * M) :=
          Finset.sum_le_sum fun h _ => h2 b h
      _ = (H : ℝ) * ((W : ℝ) * ((C : ℝ) * M)) := by
          simp [Finset.sum_const, Finset.card_univ, nsmul_eq_mul]
  have hS : (∑ b, ∑ h, ∑ w, ∑ c, f b h w c) ≤
      (B : ℝ) * ((H : ℝ) * ((W : ℝ) * ((C : ℝ) * M))) := by
    calc (∑ b, ∑ h, ∑ w, ∑ c, f b h w c) ≤
          ∑ _b : Fin B, (H : ℝ) * ((W : ℝ) * ((C : ℝ) * M)) :=
          Finset.sum_le_sum fun b _ => h3 b
      _ = (B : ℝ) * ((H : ℝ) * ((W : ℝ) * ((C : ℝ) * M))) := by
          simp [Finset.sum_const, Finset.card_univ, nsmul_eq_mul]
  have hd : (0 : ℝ) ≤ (B : ℝ) * H * W * C := by positivity
  rcases hd.eq_or_lt with hd0 | hdpos
  · unfold mean4
    rw [← hd0, div_zero]
    exact ⟨le_rfl, hM⟩
  · unfold mean4
    refine ⟨div_nonneg hS0 hdpos.le, ?_⟩
    rw [div_le_iff₀ hdpos]
    calc (∑ b, ∑ h, ∑ w, ∑ c, f b h w c) ≤
          (B : ℝ) * ((H : ℝ) * ((W : ℝ) * ((C : ℝ) * M))) := hS
      _ = M * ((B : ℝ) * H * W * C) := by ring

/-- On a 0/1 ground truth, the categorical focal loss of the ground truth
against itself lies between 0 and `alpha·eps^gamma·(−log(1−eps))`: every
clipped term is 0 on background entries and exactly that bound on foreground
entries. -/
theorem cfl_self_bounds {B H W C : ℕ} (gt : Tensor B H W C ℝ)
    (gamma alpha eps : ℝ)
    (hbin : ∀ b h w c, gt b h w c = 0 ∨ gt b h w c = 1)
    (ha : 0 ≤ alpha) (he0 : 0 < eps) (he1 : eps ≤ 1 / 2) :
    0 ≤ categorical_focal_loss gt gt gamma alpha eps ∧
      categorical_focal_loss gt gt gamma alpha eps ≤
        alpha * eps ^ gamma * (-Real.log (1 - eps)) := by
  have hMnn : 0 ≤ alpha * eps ^ gamma * (-Real.log (1 - eps)) := by
    have hp : (0 : ℝ) ≤ eps ^ gamma := Real.rpow_nonneg he0.le _
    have hlog : Real.log (1 - eps) ≤ 0 :=
      Real.log_nonpos (by linarith) (by linarith)
    have : 0 ≤ -Real.log (1 - eps) := by linarith
    exact mul_nonneg (mul_nonneg ha hp) this
  have hc1 : clip (1 : ℝ) eps (1 - eps) = 1 - eps := by
    rw [clip, max_eq_left (by linarith), min_eq_right (by linarith)]
  have hbody : categorical_focal_loss gt gt gamma alpha eps =
      mean4 (fun b h w c =>
        (alpha * gt b h w c * (1 - clip (gt b h w c) eps (1 - eps)) ^ gamma) *
          (-(gt b h w c * Real.log (clip (gt b h w c) eps (1 - eps))))) := rfl
  rw [hbody]
  refine mean4_mem_Icc _ _ hMnn fun b h w c => ?_
  rcases hbin b h w c with h0 | h1
  · rw [h0]
    have hz : (alpha * 0 * (1 - clip 0 eps (1 - eps)) ^ gamma) *
        (-(0 * Real.log (clip 0 eps (1 - eps)))) = 0 := by ring
    rw [hz]
    exact ⟨le_rfl, hMnn⟩
  · have hentry : (alpha * 1 * (1 - (1 - eps)) ^ gamma) * (-(1 * Real.log (1 - eps))) =
        alpha * eps ^ gamma * (-Real.log (1 - eps)) := by
      rw [sub_sub_cancel]
      ring
    rw [h1, hc1, hentry]
    exact ⟨hMnn, le_rfl⟩

/-- C9: on a 0/1 ground truth, the focal loss of the ground truth against
itself is nonnegative yet bounded by twice `alpha·eps^gamma·(−log(1−eps))` —
each clipped term of either summand is at most `alpha·eps^gamma·(−log(1−eps))`,
so the loss is near the minimal achievable value. -/
theorem focal_loss_self_small {B H W C : ℕ} (gt : Tensor B H W C ℝ)
    (gamma alpha eps : ℝ)
    (hbin : ∀ b h w c, gt b h w c = 0 ∨ gt b h w c = 1)
    (ha : 0 ≤ alpha) (he0 : 0 < eps) (he1 : eps ≤ 1 / 2) :
    0 ≤ focal_loss gt gt gamma alpha eps ∧
      focal_loss gt gt gamma alpha eps ≤
        2 * (alpha * eps ^ gamma * (-Real.log (1 - eps))) := by
  have hbin' : ∀ b h w c, (1 : ℝ) - gt b h w c = 0 ∨ (1 : ℝ) - gt b h w c = 1 := by
    intro b h w c
    rcases hbin b h w c with h0 | h1
    · right; rw [h0, sub_zero]
    · left; rw [h1, sub_self]
  have H1 := cfl_self_bounds gt gamma alpha eps hbin ha he0 he1
  have H2 := cfl_self_bounds (fun b h w c => 1 - gt b h w c) gamma alpha eps
    hbin' ha he0 he1
  have hfl : focal_loss gt gt gamma alpha eps =
      categorical_focal_loss gt gt gamma alpha eps +
        categorical_focal_loss (fun b h w c => 1 - gt b h w c)
          (fun b h w c => 1 - gt b h w c) gamma alpha eps := rfl
  rw [hfl]
  constructor
  · linarith [H1.1, H2.1]
  · linarith [H1.2, H2.2]

/-- Witness for `focal_loss_self_small` on the all-ones 1×1×1×1 ground truth
with `gamma = 1`, `alpha = 1`, `eps = 1/2`. -/
theorem focal_loss_self_small_witness :
    0 ≤ focal_loss ((fun _ _ _ _ => 1) : Tensor 1 1 1 1 ℝ)
        ((fun _ _ _ _ => 1) : Tensor 1 1 1 1 ℝ) 1 1 (1 / 2) ∧
      focal_loss ((fun _ _ _ _ => 1) : Tensor 1 1 1 1 ℝ)
          ((fun _ _ _ _ => 1) : Tensor 1 1 1 1 ℝ) 1 1 (1 / 2) ≤
        2 * (1 * (1 / 2 : ℝ) ^ (1 : ℝ) * (-Real.log (1 - 1 / 2))) :=
  focal_loss_self_small (fun _ _ _ _ => 1) 1 1 (1 / 2)
    (fun _ _ _ _ => Or.inr rfl) (by norm_num) (by norm_num) (by norm_num)

end SegmentationModels
